import Mathlib

/-!
Shallow embedding of `flag_checker.py`: a tool that extracts hexadecimal
literals from text, decodes each as a bitmask against a fixed flag table,
and reports per-flag frequency.  Rendered output lines are modelled as
`List Char`; Python dict / list / string operations are modelled by
explicit association lists and list functions.
-/

/-- The character class `[0-9a-fA-F]` of the extraction regex. -/
def isHexDigit (c : Char) : Bool :=
  decide ((48 ≤ c.toNat ∧ c.toNat ≤ 57) ∨ (97 ≤ c.toNat ∧ c.toNat ≤ 102) ∨
    (65 ≤ c.toNat ∧ c.toNat ≤ 70))

/-- Fuelled scanner implementing `re.findall(r'0x([0-9a-fA-F]+)', text)`:
leftmost non-overlapping matching; at each position a match requires the
literal lowercase prefix `0x` followed by at least one hex digit, captures
the maximal (greedy) run of hex digits, and resumes right after it;
otherwise the scan advances one character. -/
def extractHexAux : Nat → List Char → List (List Char)
  | 0, _ => []
  | _ + 1, [] => []
  | fuel + 1, c :: rest =>
    match rest with
    | [] => []
    | x :: r =>
      if c == '0' && x == 'x' then
        let digits := r.takeWhile isHexDigit
        if digits.isEmpty then extractHexAux fuel rest
        else digits :: extractHexAux fuel (r.dropWhile isHexDigit)
      else extractHexAux fuel rest

/-- `extract_hex_values` from the source: all captures of
`0x([0-9a-fA-F]+)` over the text, in order of first character position. -/
def extract_hex_values (l : List Char) : List (List Char) :=
  extractHexAux l.length l

/-- Whether a match of the regex starts at the head of the text. -/
def matchHead : List Char → Bool
  | c :: x :: d :: _ => c == '0' && x == 'x' && isHexDigit d
  | _ => false

/-- Numeric value of a hex digit character. -/
def hexVal (c : Char) : Nat :=
  if c.toNat ≤ 57 then c.toNat - 48
  else if 97 ≤ c.toNat then c.toNat - 87
  else c.toNat - 55

/-- Models Python `int(s, 16)` on the strings that occur in this program:
succeeds exactly on a non-empty string of hex digits.  (Python additionally
accepts surrounding whitespace, a sign, a `0x` prefix and underscores; no
such string is ever passed here, every argument being a regex capture.) -/
def int16 (l : List Char) : Option Nat :=
  if !l.isEmpty && l.all isHexDigit then
    some (l.foldl (fun a c => 16 * a + hexVal c) 0)
  else none

/-- `flags_dict` from the source, in insertion order: the EObjectFlags
bit-to-name table.  Note the duplicate name at bits `0x40000000` and
`0x80000000`. -/
def flags_dict : List (Nat × String) := [
  (0x00000001, "RF_Transactional"),
  (0x00000002, "RF_Unreachable"),
  (0x00000004, "RF_Public"),
  (0x00000008, "RF_TagImp"),
  (0x00000010, "RF_TagExp"),
  (0x00000020, "RF_SourceModified"),
  (0x00000040, "RF_TagGarbage"),
  (0x00000080, "RF_Final"),
  (0x00000100, "RF_PerObjectLocalized"),
  (0x00000200, "RF_NeedLoad"),
  (0x00000400, "RF_HighlightedName/RF_EliminateObject/RF_RemappedName/RF_Protected"),
  (0x00000800, "RF_InSingularFunc/RF_Suppress/RF_StateChanged"),
  (0x00001000, "RF_InEndState"),
  (0x00002000, "RF_Transient"),
  (0x00004000, "RF_Preloading"),
  (0x00008000, "RF_LoadForClient"),
  (0x00010000, "RF_LoadForServer"),
  (0x00020000, "RF_LoadForEdit"),
  (0x00040000, "RF_Standalone"),
  (0x00080000, "RF_NotForClient"),
  (0x00100000, "RF_NotForServer"),
  (0x00200000, "RF_NotForEdit"),
  (0x00400000, "RF_Destroyed"),
  (0x00800000, "RF_NeedPostLoad"),
  (0x01000000, "RF_HasStack"),
  (0x02000000, "RF_Native"),
  (0x04000000, "RF_Marked"),
  (0x08000000, "RF_ErrorShutdown"),
  (0x10000000, "RF_DebugPostLoad"),
  (0x20000000, "RF_DebugSerialize"),
  (0x40000000, "RF_DebugDestroy"),
  (0x80000000, "RF_DebugDestroy")]

/-- One step of Python's stable `sorted`: insert `x` after every element
`y` of the (already placed) list that satisfies `le y x`, i.e. after every
element that may legitimately stay before `x`. -/
def pyInsert (le : α → α → Bool) (x : α) : List α → List α
  | [] => [x]
  | y :: ys => if le y x then y :: pyInsert le x ys else x :: y :: ys

/-- Python's `sorted` with the "may precede" test `le`: a stable sort,
elements inserted left to right. -/
def pysort (le : α → α → Bool) (l : List α) : List α :=
  l.foldl (fun acc x => pyInsert le x acc) []

/-- Comparison used by `sorted(flags_dict.items())`: ascending on the bit
(keys are distinct, so tuple comparison reduces to the first component). -/
def bitLe (a b : Nat × String) : Bool := decide (a.1 ≤ b.1)

/-- Comparison realising `sorted(..., key=lambda x: x[1], reverse=True)`:
`a` may stay before `b` exactly when `a`'s count is at least `b`'s. -/
def cntGe (a b : String × Nat) : Bool := decide (b.2 ≤ a.2)

/-- `analyze_flags` from the source: iterate `sorted(flags_dict.items())`
and collect the names of the bits present in the value. -/
def analyze_flags (v : Nat) : List String :=
  (pysort bitLe flags_dict).foldl
    (fun acc p => if v &&& p.1 != 0 then acc ++ [p.2] else acc) []

/-- `flag_counts[name] = flag_counts.get(name, 0) + 1` on a Python dict in
insertion order: bump an existing key in place, or append a fresh one. -/
def incr : List (String × Nat) → String → List (String × Nat)
  | [], name => [(name, 1)]
  | (n, c) :: rest, name =>
    if n = name then (n, c + 1) :: rest else (n, c) :: incr rest name

/-- The inner loop of `analyze_multiple` for one value: iterate
`flags_dict.items()` in insertion order and count each matching flag. -/
def processValue (fc : List (String × Nat)) (v : Nat) : List (String × Nat) :=
  flags_dict.foldl (fun fc p => if v &&& p.1 != 0 then incr fc p.2 else fc) fc

/-- The `flag_counts` dict built by `analyze_multiple` over all values. -/
def flagCounts (values : List Nat) : List (String × Nat) :=
  values.foldl processValue []

/-- `sorted_flags` from `analyze_multiple`: the counts sorted by
descending count with Python's stable sort. -/
def sorted_flags (values : List Nat) : List (String × Nat) :=
  pysort cntGe (flagCounts values)

/-- Sum of the counts of a frequency list. -/
def sumCounts (l : List (String × Nat)) : Nat := (l.map Prod.snd).sum

/-- Python string formatting `{s:w}`: left-justify, pad on the right with
spaces up to width `w`, never truncate. -/
def pyLjust (w : Nat) (s : List Char) : List Char :=
  if s.length < w then s ++ List.replicate (w - s.length) ' ' else s

/-- Python numeric formatting `{n:w}`: right-align, pad on the left with
spaces up to width `w`, never truncate. -/
def pyRjust (w : Nat) (s : List Char) : List Char :=
  if s.length < w then List.replicate (w - s.length) ' ' ++ s else s

/-- The percentage string of `(count / total) * 100` under `%.1f`.  The
source computes in IEEE-754 double precision; this embedding renders the
exact rational `count*100/total` rounded to one decimal digit, which
agrees with the source whenever the value is exactly representable at one
decimal, as in every concrete instance below.  (`total = 0` never reaches
this point: it is guarded by the empty-extraction check in `__main__`.) -/
def pctChars (count total : Nat) : List Char :=
  let tenths := (count * 2000 + total) / (2 * total)
  (Nat.repr (tenths / 10)).data ++ ['.'] ++ (Nat.repr (tenths % 10)).data

/-- One report line
`f"{flag_name:50} {count:3}/{total} ({percentage:5.1f}%)"`, the
percentage field taken as an argument. -/
def formatLine (total : Nat) (p : String × Nat) (pct : List Char) : List Char :=
  pyLjust 50 p.1.data ++ [' '] ++ pyRjust 3 (Nat.repr p.2).data ++ ['/'] ++
    (Nat.repr total).data ++ [' ', '('] ++ pyRjust 5 pct ++ ['%', ')']

/-- The lines printed by `analyze_multiple` (each `print` contributes its
text split at newlines). -/
def analyzeMultipleLines (values : List Nat) : List (List Char) :=
  [List.replicate 60 '=', "ANALYZING FLAGS".data, List.replicate 60 '=', [],
    "Flag frequency across ".data ++ (Nat.repr values.length).data ++ " files:".data, []]
  ++ (sorted_flags values).map
      (fun p => formatLine values.length p (pctChars p.2 values.length))

/-- Outcome of `open(filename, 'r')` followed by `f.read()`: the file
content, a `FileNotFoundError`, or some other exception carrying a
message.  The filesystem itself is outside the program, so this outcome is
an input of the model. -/
inductive OpenResult where
  | notFound
  | err (msg : String)
  | ok (content : List Char)

/-- The `__main__` block after argument parsing: lines printed and exit
code (0 on the success path).  The `none` branch of the token parse is
unreachable (every extracted token is valid hex, see the safety theorem
below); the source would raise mid-report there, and the top-level
`except Exception` would print `Error: <message>`. -/
def mainOutput (filename : String) (r : OpenResult) : List (List Char) × Nat :=
  match r with
  | .notFound => (["Error: File '".data ++ filename.data ++ "' not found!".data], 1)
  | .err msg => (["Error: ".data ++ msg.data], 1)
  | .ok content =>
    let hex := extract_hex_values content
    if hex.isEmpty then (["No hex values found in file!".data], 1)
    else
      match hex.mapM int16 with
      | none => (["Error: invalid literal for int() with base 16".data], 1)
      | some values =>
        (("Found ".data ++ (Nat.repr hex.length).data ++ " hex values".data)
          :: [] :: analyzeMultipleLines values, 0)

/-- Boolean subsequence test (order-preserving containment). -/
def isSubseq : List String → List String → Bool
  | [], _ => true
  | _ :: _, [] => false
  | a :: as, b :: bs => if a = b then isSubseq as bs else isSubseq (a :: as) bs

/-! ### Decoder lemmas -/

/-- `flags_dict` is already in ascending bit order, so Python's
`sorted(flags_dict.items())` leaves it unchanged. -/
theorem pysort_flags_dict : pysort bitLe flags_dict = flags_dict := by decide

theorem foldl_append_filter (f : α → Bool) (g : α → β) :
    ∀ (L : List α) (acc : List β),
      L.foldl (fun acc p => if f p then acc ++ [g p] else acc) acc
        = acc ++ (L.filter f).map g
  | [], acc => by simp
  | p :: L, acc => by
    by_cases h : f p <;>
      simp [List.foldl_cons, h, foldl_append_filter f g L, List.filter_cons]

/-- The decoder is the filter of the table at the set bits, projected to
names. -/
theorem analyze_flags_eq (v : Nat) :
    analyze_flags v = ((flags_dict.filter fun p => v &&& p.1 != 0).map Prod.snd) := by
  rw [analyze_flags, pysort_flags_dict]
  exact foldl_append_filter _ _ _ _

/-- C1: for every value `v ≥ 0`, the Decoder returns exactly the names of
the table entries whose bit is set in `v` (`v &&& bit ≠ 0`), in ascending
bit-value order (the filtered table is strictly ascending on bits), with
no names for bits absent from the table; in particular `analyze_flags 0`
is empty, and the function is total, so no input raises an error. -/
theorem C1_decoder (v : Nat) :
    analyze_flags v = ((flags_dict.filter fun p => v &&& p.1 != 0).map Prod.snd)
    ∧ List.Pairwise (fun p q => p.1 < q.1) (flags_dict.filter fun p => v &&& p.1 != 0)
    ∧ analyze_flags 0 = [] := by
  refine ⟨analyze_flags_eq v, ?_, ?_⟩
  · exact List.Pairwise.sublist (List.filter_sublist flags_dict) (by decide)
  · decide

/-! ### Stable-sort lemmas -/

theorem pyInsert_mem {le : α → α → Bool} {x a : α} {l : List α}
    (h : a ∈ pyInsert le x l) : a = x ∨ a ∈ l := by
  induction l with
  | nil => simpa [pyInsert] using h
  | cons y ys ih =>
    by_cases hle : le y x
    · rw [pyInsert, if_pos hle] at h
      rcases List.mem_cons.mp h with he | h2
      · exact Or.inr (by simp [he])
      · rcases ih h2 with h3 | h3
        · exact Or.inl h3
        · exact Or.inr (List.mem_cons_of_mem _ h3)
    · rw [pyInsert, if_neg hle] at h
      rcases List.mem_cons.mp h with he | h2
      · exact Or.inl he
      · exact Or.inr h2

theorem pyInsert_pairwise {le : α → α → Bool}
    (htot : ∀ a b, le a b = true ∨ le b a = true)
    (htrans : ∀ a b c, le a b = true → le b c = true → le a c = true)
    (x : α) : ∀ {l : List α}, l.Pairwise (fun a b => le a b = true) →
      (pyInsert le x l).Pairwise (fun a b => le a b = true)
  | [], _ => by simp [pyInsert]
  | y :: ys, h => by
    rw [List.pairwise_cons] at h
    by_cases hle : le y x
    · simp only [pyInsert]
      rw [if_pos hle, List.pairwise_cons]
      refine ⟨fun a ha => ?_, pyInsert_pairwise htot htrans x h.2⟩
      rcases pyInsert_mem ha with he | ha
      · rw [he]; exact hle
      · exact h.1 a ha
    · simp only [pyInsert]
      rw [if_neg hle, List.pairwise_cons]
      have hxy : le x y = true := (htot x y).resolve_right (by simpa using hle)
      refine ⟨fun a ha => ?_, List.pairwise_cons.mpr h⟩
      rcases List.mem_cons.mp ha with rfl | ha
      · exact hxy
      · exact htrans x y a hxy (h.1 a ha)

theorem pysort_foldl_pairwise {le : α → α → Bool}
    (htot : ∀ a b, le a b = true ∨ le b a = true)
    (htrans : ∀ a b c, le a b = true → le b c = true → le a c = true) :
    ∀ (l acc : List α), acc.Pairwise (fun a b => le a b = true) →
      (l.foldl (fun acc x => pyInsert le x acc) acc).Pairwise
        (fun a b => le a b = true)
  | [], _, h => h
  | x :: l, _, h =>
    pysort_foldl_pairwise htot htrans l _ (pyInsert_pairwise htot htrans x h)

/-- Python's stable sort sorts: the result is pairwise ordered by `le`. -/
theorem pysort_pairwise {le : α → α → Bool}
    (htot : ∀ a b, le a b = true ∨ le b a = true)
    (htrans : ∀ a b c, le a b = true → le b c = true → le a c = true)
    (l : List α) : (pysort le l).Pairwise (fun a b => le a b = true) :=
  pysort_foldl_pairwise htot htrans l [] (by simp)

theorem pyInsert_perm (le : α → α → Bool) (x : α) :
    ∀ l : List α, (pyInsert le x l).Perm (x :: l)
  | [] => List.Perm.refl _
  | y :: ys => by
    by_cases hle : le y x
    · simp only [pyInsert, hle, if_true]
      exact ((pyInsert_perm le x ys).cons y).trans (List.Perm.swap x y ys)
    · simp [pyInsert, hle]

theorem pysort_foldl_perm (le : α → α → Bool) :
    ∀ (l acc : List α), (l.foldl (fun acc x => pyInsert le x acc) acc).Perm (acc ++ l)
  | [], acc => by simp
  | x :: l, acc => by
    refine (pysort_foldl_perm le l (pyInsert le x acc)).trans ?_
    exact ((pyInsert_perm le x acc).append_right l).trans List.perm_middle.symm

/-- Python's stable sort permutes its input. -/
theorem pysort_perm (le : α → α → Bool) (l : List α) : (pysort le l).Perm l :=
  (pysort_foldl_perm le l []).trans (by simp)

theorem cntGe_total : ∀ a b : String × Nat, cntGe a b = true ∨ cntGe b a = true := by
  intro a b
  simp only [cntGe, decide_eq_true_eq]
  exact Nat.le_total b.2 a.2

theorem cntGe_trans : ∀ a b c : String × Nat,
    cntGe a b = true → cntGe b c = true → cntGe a c = true := by
  intro a b c hab hbc
  simp only [cntGe, decide_eq_true_eq] at *
  exact Nat.le_trans hbc hab

/-- Inserting into a descending-sorted list preserves, for each count `c`,
the subsequence of entries with count `c`: a new entry with count `c` goes
after every existing one. -/
theorem pyInsert_filter (c : Nat) (x : String × Nat) {l : List (String × Nat)}
    (hl : l.Pairwise (fun a b => cntGe a b = true)) :
    (pyInsert cntGe x l).filter (fun p => p.2 == c)
      = if x.2 == c then l.filter (fun p => p.2 == c) ++ [x]
        else l.filter (fun p => p.2 == c) := by
  induction l with
  | nil => by_cases hx : x.2 == c <;> simp [pyInsert, List.filter, hx]
  | cons y ys ih =>
    rw [List.pairwise_cons] at hl
    by_cases hle : cntGe y x
    · rw [pyInsert, if_pos hle, List.filter_cons, List.filter_cons, ih hl.2]
      by_cases hy : y.2 == c <;> by_cases hx : x.2 == c <;> simp [hy, hx]
    · rw [pyInsert, if_neg hle]
      have hyx : y.2 < x.2 := by
        simp only [cntGe, decide_eq_true_eq] at hle
        omega
      by_cases hx : x.2 == c
      · have hc : x.2 = c := by simpa using hx
        have hnil : (y :: ys).filter (fun p => p.2 == c) = [] := by
          rw [List.filter_eq_nil_iff]
          intro a ha
          rcases List.mem_cons.mp ha with he | ha
          · subst he; simp; omega
          · have : a.2 ≤ y.2 := by
              have := hl.1 a ha
              simpa [cntGe] using this
            simp; omega
        rw [List.filter_cons]
        simp only [hx, if_pos, hnil]
        simp [hc]
      · rw [List.filter_cons]
        simp [hx]

theorem pysort_foldl_filter (c : Nat) :
    ∀ (l acc : List (String × Nat)),
      acc.Pairwise (fun a b => cntGe a b = true) →
      ((l.foldl (fun acc x => pyInsert cntGe x acc) acc).filter (fun p => p.2 == c))
        = acc.filter (fun p => p.2 == c) ++ l.filter (fun p => p.2 == c)
  | [], acc, _ => by simp
  | x :: l, acc, h => by
    rw [List.foldl_cons,
      pysort_foldl_filter c l (pyInsert cntGe x acc)
        (pyInsert_pairwise cntGe_total cntGe_trans x h),
      pyInsert_filter c x h, List.filter_cons]
    by_cases hx : x.2 == c <;> simp [hx]

/-- Stability of the aggregator's sort: for every count value, the
entries carrying that count appear in the sorted output in exactly their
`flag_counts` insertion order. -/
theorem pysort_filter_stable (c : Nat) (l : List (String × Nat)) :
    (pysort cntGe l).filter (fun p => p.2 == c) = l.filter (fun p => p.2 == c) := by
  rw [pysort, pysort_foldl_filter c l [] (by simp)]
  simp

/-- C3 counterexample: on the token sequence `["2", "1"]` (values
`[2, 1]`) both flags end with count 1, and the output keeps them in
`flag_counts` insertion order `RF_Unreachable, RF_Transactional` — which
is not a subsequence of the table's bit-ascending name order, refuting
"equal counts preserve FlagTable bit-ascending relative order". -/
theorem C3_counterexample :
    sorted_flags [2, 1] = [("RF_Unreachable", 1), ("RF_Transactional", 1)]
    ∧ isSubseq ((sorted_flags [2, 1]).map Prod.fst) (flags_dict.map Prod.snd) = false := by
  decide

/-- C3 amended: for every sequence of input values, the Aggregator's
output pairs are sorted by descending count, and the sort is stable: for
each count value, the entries carrying it keep exactly their
`flag_counts` (FrequencyCount) insertion order — which is
first-occurrence order during aggregation, not necessarily FlagTable
bit-ascending order. -/
theorem C3_sort_stable (values : List Nat) :
    (sorted_flags values).Pairwise (fun a b => b.2 ≤ a.2)
    ∧ ∀ c : Nat, (sorted_flags values).filter (fun p => p.2 == c)
        = (flagCounts values).filter (fun p => p.2 == c) := by
  constructor
  · exact (pysort_pairwise cntGe_total cntGe_trans _).imp
      (fun h => by simpa [cntGe] using h)
  · intro c
    exact pysort_filter_stable c _

/-! ### Aggregation sum lemmas -/

theorem sumCounts_incr (n : String) : ∀ l : List (String × Nat),
    sumCounts (incr l n) = sumCounts l + 1
  | [] => by simp [incr, sumCounts]
  | (m, c) :: rest => by
    by_cases h : m = n
    · simp [incr, h, sumCounts]
      omega
    · simp only [incr, h, if_false, sumCounts, List.map_cons, List.sum_cons,
        sumCounts_incr n rest]
      have := sumCounts_incr n rest
      simp only [sumCounts] at this
      omega

theorem sumCounts_foldl_incr (v : Nat) :
    ∀ (L : List (Nat × String)) (fc : List (String × Nat)),
      sumCounts (L.foldl (fun fc p => if v &&& p.1 != 0 then incr fc p.2 else fc) fc)
        = sumCounts fc + (L.filter fun p => v &&& p.1 != 0).length
  | [], fc => by simp
  | p :: L, fc => by
    rw [List.foldl_cons, List.filter_cons]
    by_cases h : v &&& p.1 != 0
    · simp only [h, if_true, sumCounts_foldl_incr v L, sumCounts_incr]
      simp
      omega
    · simp only [h, if_false, sumCounts_foldl_incr v L]
      simp [h]

theorem sumCounts_processValue (fc : List (String × Nat)) (v : Nat) :
    sumCounts (processValue fc v)
      = sumCounts fc + (flags_dict.filter fun p => v &&& p.1 != 0).length :=
  sumCounts_foldl_incr v flags_dict fc

theorem sumCounts_flagCounts_foldl :
    ∀ (values : List Nat) (acc : List (String × Nat)),
      sumCounts (values.foldl processValue acc)
        = sumCounts acc
          + (values.map fun v => (flags_dict.filter fun p => v &&& p.1 != 0).length).sum
  | [], _ => by simp
  | v :: values, acc => by
    rw [List.foldl_cons, sumCounts_flagCounts_foldl values, sumCounts_processValue]
    simp
    omega

theorem sumCounts_pysort (le : (String × Nat) → (String × Nat) → Bool)
    (l : List (String × Nat)) : sumCounts (pysort le l) = sumCounts l := by
  unfold sumCounts
  exact ((pysort_perm le l).map Prod.snd).sum_eq

/-- The decoder output length is the number of matching table entries. -/
theorem analyze_flags_length (v : Nat) :
    (analyze_flags v).length = (flags_dict.filter fun p => v &&& p.1 != 0).length := by
  rw [analyze_flags_eq, List.length_map]

/-- C6: for every non-empty sequence of input values, the counts in the
Aggregator's output sum to the total number of flag names the Decoder
yields across all the values. -/
theorem C6_count_sum (values : List Nat) (_h : values ≠ []) :
    sumCounts (sorted_flags values)
      = (values.map fun v => (analyze_flags v).length).sum := by
  rw [sorted_flags, sumCounts_pysort, flagCounts, sumCounts_flagCounts_foldl]
  simp only [analyze_flags_length, sumCounts]
  simp

/-- Witness for C6 at the concrete input `[5]`. -/
theorem C6_count_sum_witness :
    [(5 : Nat)] ≠ []
    ∧ sumCounts (sorted_flags [5]) = ([(5 : Nat)].map fun v => (analyze_flags v).length).sum :=
  ⟨by decide, C6_count_sum [5] (by decide)⟩

/-! ### Extractor lemmas -/

theorem extractHexAux_nil : ∀ fuel, extractHexAux fuel [] = []
  | 0 => rfl
  | _ + 1 => rfl

/-- The scanner's fuel is irrelevant once it covers the text length. -/
theorem extractHexAux_fuel : ∀ (fuel fuel' : Nat) (l : List Char),
    l.length ≤ fuel → l.length ≤ fuel' →
    extractHexAux fuel l = extractHexAux fuel' l := by
  intro fuel
  induction fuel with
  | zero =>
    intro fuel' l h _
    have hl : l = [] := by
      cases l with
      | nil => rfl
      | cons c rest => simp at h
    subst hl
    rw [extractHexAux_nil, extractHexAux_nil]
  | succ f ih =>
    intro fuel' l h h'
    cases l with
    | nil => rw [extractHexAux_nil, extractHexAux_nil]
    | cons c rest =>
      cases fuel' with
      | zero => simp at h'
      | succ g =>
        simp only [List.length_cons] at h h'
        cases rest with
        | nil => rfl
        | cons x r =>
          have hdw : (r.dropWhile isHexDigit).length ≤ r.length :=
            (List.dropWhile_sublist _).length_le
          simp only [List.length_cons] at h h'
          simp only [extractHexAux]
          split_ifs
          · exact ih g (x :: r) (by simp; omega) (by simp; omega)
          · rw [ih g (r.dropWhile isHexDigit) (by omega) (by omega)]
          · exact ih g (x :: r) (by simp; omega) (by simp; omega)

theorem extractHexAux_extract (fuel : Nat) (l : List Char) (h : l.length ≤ fuel) :
    extractHexAux fuel l = extract_hex_values l :=
  extractHexAux_fuel fuel l.length l h Nat.le.refl

/-- A match step: at the lowercase prefix `0x` followed by a hex digit of
either case, the extractor captures the maximal run of hex digits as one
token and resumes right after it (hence duplicates are retained and
tokens come in order of first character position). -/
theorem extract_cons_match (d : Char) (r : List Char) (hd : isHexDigit d = true) :
    extract_hex_values ('0' :: 'x' :: d :: r)
      = (d :: r.takeWhile isHexDigit) :: extract_hex_values (r.dropWhile isHexDigit) := by
  have hdw : (r.dropWhile isHexDigit).length ≤ r.length :=
    (List.dropWhile_sublist _).length_le
  show extractHexAux (r.length + 2 + 1) ('0' :: 'x' :: d :: r) = _
  simp only [extractHexAux]
  rw [if_pos (by decide), List.takeWhile_cons, if_pos hd]
  rw [if_neg (by simp), List.dropWhile_cons, if_pos hd]
  rw [extractHexAux_extract (r.length + 2) (r.dropWhile isHexDigit) (by omega)]

/-- A skip step: when no match starts at the head of the text, the
extractor advances exactly one character (leftmost matching). -/
theorem extract_cons_nomatch (c : Char) (rest : List Char)
    (h : matchHead (c :: rest) = false) :
    extract_hex_values (c :: rest) = extract_hex_values rest := by
  cases rest with
  | nil => rfl
  | cons x r =>
    show extractHexAux (r.length + 1 + 1) (c :: x :: r) = _
    simp only [extractHexAux]
    by_cases hc : c == '0' && x == 'x'
    · rw [if_pos hc]
      have hcx : c = '0' ∧ x = 'x' := by simpa using hc
      have hdig : r.takeWhile isHexDigit = [] := by
        cases r with
        | nil => rfl
        | cons d r' =>
          obtain ⟨hc0, hx0⟩ := hcx
          subst hc0; subst hx0
          simp only [matchHead] at h
          rw [List.takeWhile_cons, if_neg (by simp at h; simp [h])]
      rw [hdig]
      rfl
    · rw [if_neg hc]
      rfl

/-- Every token the scanner emits is a non-empty run of hex digits. -/
theorem extractHexAux_tokens : ∀ (fuel : Nat) (l t : List Char),
    t ∈ extractHexAux fuel l → t ≠ [] ∧ t.all isHexDigit = true := by
  intro fuel
  induction fuel with
  | zero => intro l t h; simp [extractHexAux] at h
  | succ f ih =>
    intro l t h
    cases l with
    | nil => simp [extractHexAux] at h
    | cons c rest =>
      cases rest with
      | nil => simp [extractHexAux] at h
      | cons x r =>
        simp only [extractHexAux] at h
        by_cases hc : c == '0' && x == 'x'
        · rw [if_pos hc] at h
          by_cases hd : (r.takeWhile isHexDigit).isEmpty
          · rw [if_pos hd] at h
            exact ih _ t h
          · rw [if_neg hd] at h
            rcases List.mem_cons.mp h with he | h2
            · subst he
              refine ⟨fun hnil => ?_, ?_⟩
              · rw [hnil] at hd
                simp at hd
              · rw [List.all_eq_true]
                intro a ha
                exact List.mem_takeWhile_imp ha
            · exact ih _ t h2
        · rw [if_neg hc] at h
          exact ih _ t h

/-- C2 counterexample: the claim requires the uppercase prefix `0X` to
match, but the regex prefix `0x` is case-sensitive: `"0X1"` yields no
token, while the lowercase `"0x1"` yields one. -/
theorem C2_counterexample :
    extract_hex_values "0X1".data = [] ∧ extract_hex_values "0x1".data = [['1']] := by
  decide

/-- C2 amended: the Extractor is case-insensitive on the hex digits but
case-sensitive on the prefix: a match needs the literal lowercase `0x`
followed by at least one hex digit of either case, captures the maximal
digit run, and resumes immediately after it; at a non-match position the
scan advances one character (so tokens come in first-position order with
duplicates retained); the empty text yields no tokens. -/
theorem C2_extractor :
    (∀ d r, isHexDigit d = true →
      extract_hex_values ('0' :: 'x' :: d :: r)
        = (d :: r.takeWhile isHexDigit) :: extract_hex_values (r.dropWhile isHexDigit))
    ∧ (∀ c rest, matchHead (c :: rest) = false →
      extract_hex_values (c :: rest) = extract_hex_values rest)
    ∧ extract_hex_values [] = [] :=
  ⟨extract_cons_match, extract_cons_nomatch, rfl⟩

/-- Witness for C2 at concrete inputs: a match on an uppercase digit
after the lowercase prefix, and a skip at an uppercase `0X` prefix. -/
theorem C2_extractor_witness :
    isHexDigit 'A' = true
    ∧ extract_hex_values ('0' :: 'x' :: 'A' :: ['b'])
        = ('A' :: (['b']).takeWhile isHexDigit)
          :: extract_hex_values ((['b']).dropWhile isHexDigit)
    ∧ matchHead ('0' :: ['X', '1']) = false
    ∧ extract_hex_values ('0' :: ['X', '1']) = extract_hex_values ['X', '1'] :=
  ⟨by decide, C2_extractor.1 'A' ['b'] (by decide), by decide,
    C2_extractor.2.1 '0' ['X', '1'] (by decide)⟩

/-- C9: every token produced by the Extractor is a non-empty string of
hex digits, so parsing it in base 16 in the Aggregator succeeds and the
parse-error branch is unreachable. -/
theorem C9_tokens (l t : List Char) (h : t ∈ extract_hex_values l) :
    t ≠ [] ∧ t.all isHexDigit = true ∧ (int16 t).isSome = true := by
  obtain ⟨h1, h2⟩ := extractHexAux_tokens l.length l t h
  refine ⟨h1, h2, ?_⟩
  rw [int16, if_pos ?_]
  · rfl
  · cases t with
    | nil => exact absurd rfl h1
    | cons a t' => simp [h2]

/-- Witness for C9 at the concrete text `"v=0xAb"`. -/
theorem C9_tokens_witness :
    ['A', 'b'] ∈ extract_hex_values "v=0xAb".data
    ∧ (['A', 'b'] ≠ [] ∧ (['A', 'b']).all isHexDigit = true
        ∧ (int16 ['A', 'b']).isSome = true) :=
  ⟨by decide, C9_tokens "v=0xAb".data ['A', 'b'] (by decide)⟩

/-! ### Formatting lemmas -/

theorem pyLjust_eq (w : Nat) (s : List Char) :
    pyLjust w s = s ++ List.replicate (w - s.length) ' ' := by
  rw [pyLjust]
  split_ifs with h
  · rfl
  · have h0 : w - s.length = 0 := by omega
    simp [h0]

theorem pyRjust_eq (w : Nat) (s : List Char) :
    pyRjust w s = List.replicate (w - s.length) ' ' ++ s := by
  rw [pyRjust]
  split_ifs with h
  · rfl
  · have h0 : w - s.length = 0 := by omega
    simp [h0]

theorem pyLjust_length (w : Nat) (s : List Char) :
    (pyLjust w s).length = max w s.length := by
  rw [pyLjust_eq]
  simp
  omega

theorem pyRjust_length (w : Nat) (s : List Char) :
    (pyRjust w s).length = max w s.length := by
  rw [pyRjust_eq]
  simp
  omega

/-- C5 counterexample: the table name at bit `0x400` is 65 characters
long, so its formatted name field has length 66, not 50 (no truncation);
and a short name is padded on the right (left-justified), not
left-padded. -/
theorem C5_counterexample :
    ((0x00000400 : Nat),
        "RF_HighlightedName/RF_EliminateObject/RF_RemappedName/RF_Protected") ∈ flags_dict
    ∧ (pyLjust 50
        "RF_HighlightedName/RF_EliminateObject/RF_RemappedName/RF_Protected".data).length = 66
    ∧ pyLjust 50 "RF_Transactional".data
        = "RF_Transactional".data ++ List.replicate 34 ' ' := by
  decide

/-- C5 amended: each report line is the name left-justified (padded on
the right with spaces) to a minimum 50-character field with no
truncation, a space, the count right-aligned in a minimum 3-character
field, `/`, the total, and the percentage string right-aligned in a
minimum 5-character field inside `(` ... `%)`; each padded field has
length `max width contents` — so a name longer than 50 characters makes
its field exceed 50. -/
theorem C5_line_format (name : String) (count total : Nat) (pct : List Char) :
    formatLine total (name, count) pct
      = name.data ++ List.replicate (50 - name.data.length) ' '
        ++ [' '] ++ List.replicate (3 - (Nat.repr count).data.length) ' '
        ++ (Nat.repr count).data ++ ['/'] ++ (Nat.repr total).data
        ++ [' ', '('] ++ List.replicate (5 - pct.length) ' ' ++ pct ++ ['%', ')']
    ∧ (pyLjust 50 name.data).length = max 50 name.data.length
    ∧ (pyRjust 3 (Nat.repr count).data).length = max 3 (Nat.repr count).data.length
    ∧ (pyRjust 5 pct).length = max 5 pct.length := by
  refine ⟨?_, pyLjust_length _ _, pyRjust_length _ _, pyRjust_length _ _⟩
  simp [formatLine, pyLjust_eq, pyRjust_eq]

/-! ### CLI behaviour -/

/-- C4 counterexample: a file that exists but cannot be opened (e.g. a
permission error) is not a `FileNotFoundError`; the program prints the
generic `Error: <message>` line, not the `not found!` message the claim
requires for every open failure. -/
theorem C4_counterexample :
    mainOutput "data.txt" (.err "[Errno 13] Permission denied: 'data.txt'")
      = (["Error: [Errno 13] Permission denied: 'data.txt'".data], 1)
    ∧ "Error: [Errno 13] Permission denied: 'data.txt'".data
        ≠ "Error: File 'data.txt' not found!".data := by
  decide

/-- C4 amended: when the filename names a file that does not exist
(`FileNotFoundError`), the program prints
`Error: File '<filename>' not found!` and exits with code 1; when the
file cannot be opened for any other reason (e.g. a permission error), it
prints `Error: <message>` and exits with code 1. -/
theorem C4_open_errors (filename : String) :
    mainOutput filename .notFound
      = (["Error: File '".data ++ filename.data ++ "' not found!".data], 1)
    ∧ ∀ msg : String, mainOutput filename (.err msg)
        = (["Error: ".data ++ msg.data], 1) :=
  ⟨rfl, fun _ => rfl⟩

/-- C8: when the file opens but the Extractor finds no hexadecimal
token, the program prints exactly `No hex values found in file!` and
exits with code 1, with no analysis output. -/
theorem C8_no_hex (filename : String) (content : List Char)
    (h : extract_hex_values content = []) :
    mainOutput filename (.ok content) = (["No hex values found in file!".data], 1) := by
  simp [mainOutput, h]

/-- Witness for C8 at the concrete content `"hello"`. -/
theorem C8_no_hex_witness :
    extract_hex_values "hello".data = []
    ∧ mainOutput "f.txt" (.ok "hello".data)
        = (["No hex values found in file!".data], 1) :=
  ⟨by decide, C8_no_hex "f.txt" "hello".data (by decide)⟩

/-- C7: on the text `flags: 0x00000005 0x00000001` extraction yields
exactly 2 tokens, parsed as 5 and 1; aggregation puts RF_Transactional
first with count 2 of 2 (rendered 100.0%) and RF_Public second with
count 1 of 2 (rendered 50.0%). -/
theorem C7_scenario :
    (extract_hex_values ("flags: 0x00000005 0x00000001").data).length = 2
    ∧ (extract_hex_values ("flags: 0x00000005 0x00000001").data).mapM int16 = some [5, 1]
    ∧ sorted_flags [5, 1] = [("RF_Transactional", 2), ("RF_Public", 1)]
    ∧ pctChars 2 2 = "100.0".data
    ∧ pctChars 1 2 = "50.0".data := by
  decide

/-- C10: for every value with both bit `0x40000000` and bit `0x80000000`
set, the Decoder emits `RF_DebugDestroy` twice; aggregating the single
value `0xC0000000` gives that name count 2 against total 1, so the
reported count exceeds the token total and the percentage renders as
200.0%. -/
theorem C10_duplicate_name :
    (∀ v : Nat, v &&& 0x40000000 ≠ 0 → v &&& 0x80000000 ≠ 0 →
      (analyze_flags v).count "RF_DebugDestroy" = 2)
    ∧ sorted_flags [0xC0000000] = [("RF_DebugDestroy", 2)]
    ∧ List.length [(0xC0000000 : Nat)] < 2
    ∧ pctChars 2 1 = "200.0".data := by
  refine ⟨?_, by decide, by decide, by decide⟩
  intro v h1 h2
  have hb1 : (v &&& 1073741824 != 0) = true := by simpa using h1
  have hb2 : (v &&& 2147483648 != 0) = true := by simpa using h2
  rw [analyze_flags_eq, List.count_eq_countP, List.countP_map, List.countP_filter]
  simp +decide [flags_dict, List.countP_cons, hb1, hb2]

/-- Witness for C10 at the concrete value `0xC0000000`. -/
theorem C10_duplicate_name_witness :
    ((0xC0000000 : Nat) &&& 0x40000000 ≠ 0)
    ∧ ((0xC0000000 : Nat) &&& 0x80000000 ≠ 0)
    ∧ (analyze_flags 0xC0000000).count "RF_DebugDestroy" = 2 :=
  ⟨by decide, by decide, C10_duplicate_name.1 0xC0000000 (by decide) (by decide)⟩

example : extract_hex_values ("flags: 0x00000005 0x00000001").data
    = ["00000005".data, "00000001".data] := by decide

example : analyze_flags 5 = ["RF_Transactional", "RF_Public"] := by decide

example : sorted_flags [5, 1] = [("RF_Transactional", 2), ("RF_Public", 1)] := by decide

example : pctChars 1 2 = "50.0".data := by decide

example : pysort bitLe flags_dict = flags_dict := by decide
